import Mathlib

/-!
# Verification of the fixed-granularity read-through byte cache

Shallow embedding of the repository's cache (`src/cache/cache.py`,
`src/cache/cache_infra.py`, `src/cache/evictor_policies.py`).

Modelling conventions:
* Python `bytes` becomes `List Nat` (one `Nat` per byte).
* Python `dict` (insertion-ordered, unique keys) becomes an association list
  `List (κ × ν)`: lookup finds the first matching key, assignment to an
  existing key updates it in place, assignment to a fresh key appends.
* `time.time()` (an ambient float input) becomes an explicit `ℚ` argument
  threaded into every operation that reads the clock; floats are modelled as
  rationals.
* Fallible Python code (statements that raise `KeyError`, `TypeError`,
  `ValueError`) becomes `Except String`.
* An eviction policy is a pair of functions over an explicit policy-state
  type `σ` (the Python object's mutable attributes), mirroring the
  `EvictionPolicy` duck-typed interface.
-/

/-- Embeds `BlockSize` from `cache_infra.py`: a plain `Enum` with members
`B8 = 8` and `B64 = 64`.  It is *not* an `IntEnum`: adding a member to an
`int` raises `TypeError` (this matters in
`check_and_retrieve_consecutive_blocks`). -/
inductive BlockSize where
  | B8
  | B64
deriving DecidableEq, Repr

/-- The `.value` attribute of the enum member. -/
def BlockSize.value : BlockSize → Nat
  | .B8 => 8
  | .B64 => 64

/-- Embeds `CacheKey` from `cache_infra.py`: an (offset, size) pair with
structural equality and hash. -/
structure CacheKey where
  offset : Nat
  size : BlockSize
deriving DecidableEq, Repr

/-- Embeds `CacheValue` from `cache_infra.py`: byte buffer, last-access
time, hit count. -/
structure CacheValue where
  data : List Nat
  access_time : ℚ
  hit_count : Nat
deriving DecidableEq, Repr

/-- The `dict[CacheKey, CacheValue]` backing the store, as an
insertion-ordered association list. -/
abbrev CacheDict := List (CacheKey × CacheValue)

/-- First-match lookup in an insertion-ordered dict (`d[k]` / `d.get(k)`). -/
def dictLookup {κ ν : Type} [DecidableEq κ] : List (κ × ν) → κ → Option ν
  | [], _ => none
  | (k', v') :: rest, k => if k = k' then some v' else dictLookup rest k

/-- Membership test (`k in d`). -/
def dictContains {κ ν : Type} [DecidableEq κ] (d : List (κ × ν)) (k : κ) : Bool :=
  (dictLookup d k).isSome

/-- Dict assignment `d[k] = v`: updates the first occurrence in place,
otherwise appends (Python dicts keep the insertion position of a key that is
re-assigned and append fresh keys). -/
def dictInsert {κ ν : Type} [DecidableEq κ] : List (κ × ν) → κ → ν → List (κ × ν)
  | [], k, v => [(k, v)]
  | (k', v') :: rest, k, v =>
      if k = k' then (k, v) :: rest else (k', v') :: dictInsert rest k v

/-- Dict deletion `del d[k]`: removes the first occurrence of `k`. -/
def dictErase {κ ν : Type} [DecidableEq κ] : List (κ × ν) → κ → List (κ × ν)
  | [], _ => []
  | (k', v') :: rest, k =>
      if k = k' then rest else (k', v') :: dictErase rest k

/-- The keys of a dict, in insertion order. -/
def dictKeys {κ ν : Type} (d : List (κ × ν)) : List κ := d.map (·.1)

/-- Well-formedness of the association-list model of a Python dict: keys are
pairwise distinct.  Every dict built by the embedded operations from a
well-formed dict stays well-formed. -/
def DictWF {κ ν : Type} (d : List (κ × ν)) : Prop := (dictKeys d).Nodup

/-- Embeds `CacheResponse` from `cache.py`. -/
structure CacheResponse where
  data : List Nat
  is_hit : Bool
deriving DecidableEq, Repr

/-- Embeds the duck-typed `EvictionPolicy` interface from
`evictor_policies.py`, with the instance's mutable attributes made explicit
as a state `σ`.  `choose_victim` receives the store's mapping and the
current time; it may fail (two variants raise) and may update the policy's
own state (two variants mutate their bookkeeping during selection), but it
never receives the mapping back, so it cannot mutate the store.
`update_internal_cache` is the access-recording hook. -/
structure EvictionPolicy (σ : Type) where
  choose_victim : σ → CacheDict → ℚ → Except String (Option CacheKey × σ)
  update_internal_cache : σ → CacheDict → CacheKey → ℚ → σ

/-- Embeds the mutable attributes of `Cache` from `cache.py` that the claims
concern: `max_size`, the key→value mapping `cache`, and the byte-size
counter `size`.  (`file_path` becomes the explicit backing-file argument of
the operations; the policy instance and its state are explicit arguments.)
`size` is an `Int` because Python integer arithmetic never truncates. -/
structure Cache where
  max_size : Int
  cache : CacheDict
  size : Int
deriving Repr

/-- A fresh store, as built by `Cache.__init__`. -/
def Cache.init (max_size : Int) : Cache := { max_size := max_size, cache := [], size := 0 }

/-- Embeds `Cache.read_from_file`: `f.seek(offset); f.read(size.value)`.
A seek past the end of the file followed by a read returns fewer bytes than
requested (possibly zero) without raising. -/
def Cache.read_from_file (offset : Nat) (size : BlockSize) (file : List Nat) : List Nat :=
  (file.drop offset).take size.value

/-- Embeds the loop body of `Cache.check_and_retrieve_consecutive_blocks`.
Each iteration looks up `CacheKey(current_offset, B8)`; on a miss the
function returns `None`.  On a hit the loop then executes
`current_offset += BlockSize.B8`, which adds a plain `Enum` member to an
`int` and therefore raises `TypeError` in Python; the embedding errors at
exactly that point, so the loop can never complete normally once the first
candidate block is resident. -/
def checkBlocksLoop (cache : CacheDict) (offset : Nat)
    (acc : List (List Nat)) : Nat → Except String (Option (List Nat))
  | 0 => .ok (some acc.reverse.flatten)
  | Nat.succ _fuel =>
      match dictLookup cache ⟨offset, BlockSize.B8⟩ with
      | none => .ok none
      | some _v =>
          .error "TypeError: unsupported operand type(s) for +=: int and BlockSize"

/-- Embeds `Cache.check_and_retrieve_consecutive_blocks` (a `range(8)` loop
over the candidate small blocks). -/
def Cache.check_and_retrieve_consecutive_blocks (c : Cache) (offset : Nat) :
    Except String (Option (List Nat)) :=
  checkBlocksLoop c.cache offset [] 8

/-- Embeds `Cache.evict`.  When the mapping is non-empty the
access-recording hook runs; then, if the incoming payload would push `size`
over `max_size`, the policy chooses a victim and the code executes
`self.size -= len(self.cache[key_to_evict].data); del self.cache[key_to_evict]`
with **no** `None` guard: a `None` victim (or a non-resident victim key)
raises `KeyError`. -/
def Cache.evict {σ : Type} (ev : EvictionPolicy σ) (st : σ) (c : Cache)
    (data : List Nat) (key : CacheKey) (now : ℚ) : Except String (Cache × σ) :=
  if c.cache = [] then .ok (c, st)
  else
    let st1 := ev.update_internal_cache st c.cache key now
    if c.size + (data.length : Int) > c.max_size then
      match ev.choose_victim st1 c.cache now with
      | .error e => .error e
      | .ok (none, _) => .error "KeyError: None"
      | .ok (some victim, st2) =>
          match dictLookup c.cache victim with
          | none => .error "KeyError"
          | some v =>
              .ok ({ c with
                      size := c.size - (v.data.length : Int),
                      cache := dictErase c.cache victim }, st2)
    else .ok (c, st1)

/-- Embeds `Cache.insert`: run `evict`, then add the payload length to
`size` and store the entry with hit count 1 and access time `now`. -/
def Cache.insert {σ : Type} (ev : EvictionPolicy σ) (st : σ) (c : Cache)
    (key : CacheKey) (data : List Nat) (now : ℚ) : Except String (Cache × σ) :=
  match Cache.evict ev st c data key now with
  | .error e => .error e
  | .ok (c1, st1) =>
      .ok ({ c1 with
              size := c1.size + (data.length : Int),
              cache := dictInsert c1.cache key ⟨data, now, 1⟩ }, st1)

/-- Embeds `Cache.insert_and_respond`: read from the backing file, insert,
answer with `is_hit = False`. -/
def Cache.insert_and_respond {σ : Type} (ev : EvictionPolicy σ) (st : σ) (c : Cache)
    (file : List Nat) (key : CacheKey) (offset : Nat) (size : BlockSize) (now : ℚ) :
    Except String (CacheResponse × Cache × σ) :=
  let data := Cache.read_from_file offset size file
  match Cache.insert ev st c key data now with
  | .error e => .error e
  | .ok (c1, st1) => .ok (⟨data, false⟩, c1, st1)

/-- Embeds `Cache.get`.  On a hit the entry is re-assigned with a fresh
access time (same data, same hit count).  On a miss with the large
granularity, `check_and_retrieve_consecutive_blocks` runs first and its
result feeds the truthiness test `if maybe_data:` (both `None` and an empty
byte string are falsy); otherwise the call falls through to
`insert_and_respond`. -/
def Cache.get {σ : Type} (ev : EvictionPolicy σ) (st : σ) (c : Cache)
    (file : List Nat) (offset : Nat) (size : BlockSize) (now : ℚ) :
    Except String (CacheResponse × Cache × σ) :=
  let key : CacheKey := ⟨offset, size⟩
  match dictLookup c.cache key with
  | some value =>
      .ok (⟨value.data, true⟩,
           { c with cache := dictInsert c.cache key ⟨value.data, now, value.hit_count⟩ },
           st)
  | none =>
      match size with
      | .B64 =>
          match Cache.check_and_retrieve_consecutive_blocks c offset with
          | .error e => .error e
          | .ok (some maybe_data) =>
              if maybe_data = [] then
                Cache.insert_and_respond ev st c file key offset size now
              else .ok (⟨maybe_data, true⟩, c, st)
          | .ok none => Cache.insert_and_respond ev st c file key offset size now
      | .B8 => Cache.insert_and_respond ev st c file key offset size now

/-- Runs a finite sequence of `get` calls, threading store and policy state;
each element of the list is `(offset, granularity, time-of-call)`. -/
def runGets {σ : Type} (ev : EvictionPolicy σ) (file : List Nat) :
    σ → Cache → List (Nat × BlockSize × ℚ) → Except String (Cache × σ)
  | st, c, [] => .ok (c, st)
  | st, c, (offset, size, now) :: rest =>
      match Cache.get ev st c file offset size now with
      | .error e => .error e
      | .ok (_, c1, st1) => runGets ev file st1 c1 rest

/-- The exact sum of the resident entries' byte lengths
(`Σ len(entry.data)` over the mapping). -/
def sumSizes (d : CacheDict) : Int :=
  d.foldr (fun kv acc => (kv.2.data.length : Int) + acc) 0

/-! ## The eviction-policy variants (`evictor_policies.py`) -/

/-- Tests `s < best`, where `best` is a running minimum initialised to
`float("inf")`, modelled as `none`. -/
def ltOpt (s : ℚ) : Option ℚ → Bool
  | none => true
  | some m => s < m

/-- The generic strict-minimum selection loop shared by
`LFUDADecayFactorEvictor.choose_victim` and the second loop of
`LFUDAEvictor.choose_victim`:
`if key in cache and score < min_score: victim, min_score = key, score`,
starting from `victim = None`, `min_score = float("inf")` (modelled as
`none`). -/
def selectMin (cache : CacheDict) :
    List (CacheKey × ℚ) → Option CacheKey × Option ℚ → Option CacheKey × Option ℚ
  | [], acc => acc
  | (k, s) :: rest, (vic, best) =>
      if dictContains cache k && ltOpt s best then
        selectMin cache rest (some k, some s)
      else
        selectMin cache rest (vic, best)

/-- Internal state of `LFUDADecayFactorEvictor`: the `recent_accesses`
dict from keys to bounded deques of access instants (oldest first). -/
abbrev DecayState := List (CacheKey × List ℚ)

/-- Embeds `deque(maxlen=10).append(t)`: append on the right, dropping from the
left whatever exceeds ten elements. -/
def appendCapped (q : List ℚ) (t : ℚ) : List ℚ :=
  let q2 := q ++ [t]
  q2.drop (q2.length - 10)

/-- Horner form of `sum(timestamps * decay_factor ** arange(len))`:
`Σ q[i] * d^i` with `i` counted from the front (oldest) element. -/
def decayedSum (d : ℚ) : List ℚ → ℚ
  | [] => 0
  | t :: ts => t + d * decayedSum d ts

/-- The per-key score of `LFUDADecayFactorEvictor.choose_victim`:
`1 / (now*2 - Σ timestamps·d^i)` for a non-empty queue, `0` for an empty
one, and an extra division by 8 when the key has the large granularity. -/
def decayScore (d now : ℚ) (key : CacheKey) (q : List ℚ) : ℚ :=
  let recency_score : ℚ := if q = [] then 0 else 1 / (now * 2 - decayedSum d q)
  if key.size = BlockSize.B64 then recency_score / 8 else recency_score

/-- Embeds `LFUDADecayFactorEvictor.choose_victim` (decay factor `d`): one
pass over `recent_accesses` computing each key's score and keeping the
first strict minimum among keys still resident in `cache`. -/
def decayChooseVictim (d : ℚ) (ra : DecayState) (cache : CacheDict) (now : ℚ) :
    Option CacheKey :=
  (selectMin cache (ra.map (fun kq => (kq.1, decayScore d now kq.1 kq.2))) (none, none)).1

/-- Embeds `LFUDADecayFactorEvictor.update_internal_cache`: create the
key's deque if absent (then the append makes it `[now]`, placed at the end
of the dict), else append `now` subject to `maxlen=10`. -/
def decayUpdate (ra : DecayState) (key : CacheKey) (now : ℚ) : DecayState :=
  match dictLookup ra key with
  | none => ra ++ [(key, [now])]
  | some q => dictInsert ra key (appendCapped q now)

/-- The `LFUDADecayFactorEvictor` policy with decay factor `d`
(`choose_victim` never raises and never touches its own state). -/
def decayPolicy (d : ℚ) : EvictionPolicy DecayState where
  choose_victim := fun st cache now => .ok (decayChooseVictim d st cache now, st)
  update_internal_cache := fun st _cache key now => decayUpdate st key now

/-- The module-level singleton `lFUDADecayFactorEvictor` is a
`LFUDADecayFactorEvictor()` with the default `decay_factor=0.5`; it is the
default `evictor` argument of `Cache.__init__`, hence shared by every store
built without an explicit policy. -/
def lFUDADecayFactorEvictor : EvictionPolicy DecayState := decayPolicy (1/2)

/-- Internal state of `LFUDAEvictor`: `frequency_count` and
`last_access_time`. -/
structure LFUDAState where
  frequency_count : List (CacheKey × Nat)
  last_access_time : List (CacheKey × ℚ)
deriving DecidableEq, Repr

/-- The recency term of `LFUDAEvictor.choose_victim` for one key:
`time_passed = now - last_access_time.get(key, 0.0)`; `1` if that is
exactly zero; else `0` when `last_access_time.get(key)` is falsy (absent,
or recorded as exactly `0.0`); else `1 / (now - last_access_time[key])`. -/
def lfudaRecency (now : ℚ) (lastAccess : Option ℚ) : ℚ :=
  if now - lastAccess.getD 0 = 0 then 1
  else if lastAccess.getD 0 = 0 then 0
  else 1 / (now - lastAccess.getD 0)

/-- The combined score of `LFUDAEvictor.choose_victim` for one key:
`frequency + recency`, then divided by 8 unless the key has the small
granularity (`combined_score if key.size == BlockSize.B8 else
combined_score / 8`). -/
def lfudaScore (now : ℚ) (key : CacheKey) (freq : Nat) (lastAccess : Option ℚ) : ℚ :=
  let combined : ℚ := (freq : ℚ) + lfudaRecency now lastAccess
  if key.size = BlockSize.B8 then combined else combined / 8

/-- The `combined_scores` dict built by the first loop of
`LFUDAEvictor.choose_victim`: one entry per `frequency_count` item. -/
def lfudaScores (st : LFUDAState) (now : ℚ) : List (CacheKey × ℚ) :=
  st.frequency_count.foldl
    (fun acc kf => dictInsert acc kf.1 (lfudaScore now kf.1 kf.2 (dictLookup st.last_access_time kf.1)))
    []

/-- Embeds `LFUDAEvictor.choose_victim`: build `combined_scores`, then keep
the first strict minimum among keys still resident. -/
def lfudaChooseVictim (st : LFUDAState) (cache : CacheDict) (now : ℚ) : Option CacheKey :=
  (selectMin cache (lfudaScores st now) (none, none)).1

/-- Embeds `LFUDAEvictor.update_internal_cache`: create the frequency at 0
if absent, increment it, and overwrite the last-access time with `now`. -/
def lfudaUpdate (st : LFUDAState) (key : CacheKey) (now : ℚ) : LFUDAState :=
  let f0 := (dictLookup st.frequency_count key).getD 0
  { frequency_count := dictInsert st.frequency_count key (f0 + 1),
    last_access_time := dictInsert st.last_access_time key now }

/-- The `LFUDAEvictor` policy (module singleton `lFUDAEvictor`). -/
def lFUDAEvictor : EvictionPolicy LFUDAState where
  choose_victim := fun st cache now => .ok (lfudaChooseVictim st cache now, st)
  update_internal_cache := fun st _cache key now => lfudaUpdate st key now

/-- Embeds `choose_oldest` (used by `LRUEvictor.choose_victim`): the loop
keeping the first entry with a strictly smaller `access_time`, starting
from `oldest_key = None`, `oldest_access_time = inf`. -/
def choose_oldest : CacheDict → Option CacheKey × Option ℚ → Option CacheKey
  | [], acc => acc.1
  | (k, v) :: rest, (vic, best) =>
      if ltOpt v.access_time best then
        choose_oldest rest (some k, some v.access_time)
      else
        choose_oldest rest (vic, best)

/-- The `LRUEvictor` policy (stateless; its `update_internal_cache` just
returns `True`). -/
def lru_evictor : EvictionPolicy Unit where
  choose_victim := fun st cache _now => .ok (choose_oldest cache (none, none), st)
  update_internal_cache := fun st _cache _key _now => st

/-- Python's `min(iterable, key=f)` on a non-empty list: the first element
with the strictly smallest `f`-value. -/
def pyMinBy (f : CacheKey → Nat) : List CacheKey → Option CacheKey
  | [] => none
  | k :: rest => some (rest.foldl (fun best k' => if f k' < f best then k' else best) k)

/-- Embeds `LFUEvictor.choose_victim`: first a loop that increments the
internal frequency counter of **every** resident key (creating it at 0),
then `min(cache, key=self.frequency_count.get)` — which raises
`ValueError` when the mapping is empty. -/
def lfuChooseVictim (freq : List (CacheKey × Nat)) (cache : CacheDict) :
    Except String (Option CacheKey × List (CacheKey × Nat)) :=
  let freq1 := cache.foldl
    (fun acc kv => dictInsert acc kv.1 ((dictLookup acc kv.1).getD 0 + 1)) freq
  match cache with
  | [] => .error "ValueError: min() iterable argument is empty"
  | _ => .ok (pyMinBy (fun k => (dictLookup freq1 k).getD 0) (dictKeys cache), freq1)

/-- The `LFUEvictor` policy (module singleton `lfu_evictor`); its state is
the `frequency_count` dict, which `choose_victim` itself mutates. -/
def lfu_evictor : EvictionPolicy (List (CacheKey × Nat)) where
  choose_victim := fun st cache _now => lfuChooseVictim st cache
  update_internal_cache := fun st _cache _key _now => st

/-- The strict-maximum selection loop of `HotBlockEvictor.choose_victim`:
`if key in cache and score > hottest_score`, starting from
`victim = None`, `hottest_score = 0`. -/
def selectMaxPos (cache : CacheDict) :
    List (CacheKey × Nat) → Option CacheKey × Nat → Option CacheKey
  | [], acc => acc.1
  | (k, s) :: rest, (vic, best) =>
      if dictContains cache k ∧ best < s then
        selectMaxPos cache rest (some k, s)
      else
        selectMaxPos cache rest (vic, best)

/-- The two bumping loops at the head of `HotBlockEvictor.choose_victim`:
compute `recently_accessed_blocks` (the resident keys whose entry was
accessed within `threshold` seconds of `now`; the Python set comprehension
is modelled in the mapping's iteration order — the resulting counters do
not depend on that order) and increment each one's hotness counter,
creating it at 0. -/
def hotBumped (threshold : ℚ) (hb : List (CacheKey × Nat))
    (cache : CacheDict) (now : ℚ) : List (CacheKey × Nat) :=
  let recent := (cache.filter (fun kv => now - kv.2.access_time < threshold)).map (·.1)
  recent.foldl (fun acc k => dictInsert acc k ((dictLookup acc k).getD 0 + 1)) hb

/-- Embeds `HotBlockEvictor.choose_victim`: bump the hotness counters, pick
the resident key with the strictly largest counter, and — when no key
qualifies — execute `del self.hot_blocks[None]`, which raises `KeyError`
because `None` is never a key of `hot_blocks`.  (When a victim *is* found
it is resident by construction, so the final `if victim not in cache`
housekeeping deletion does not fire.) -/
def hotBlockChooseVictim (threshold : ℚ) (hb : List (CacheKey × Nat))
    (cache : CacheDict) (now : ℚ) : Except String (Option CacheKey × List (CacheKey × Nat)) :=
  let hb1 := hotBumped threshold hb cache now
  match selectMaxPos cache hb1 (none, 0) with
  | none => .error "KeyError: None"
  | some victim => .ok (some victim, hb1)

/-- The `HotBlockEvictor` policy with threshold `t` (module singleton
`hot_block_evictor` uses the default `10`). -/
def hotBlockPolicy (t : ℚ) : EvictionPolicy (List (CacheKey × Nat)) where
  choose_victim := fun st cache now => hotBlockChooseVictim t st cache now
  update_internal_cache := fun st _cache _key _now => st

/-- The module singleton `hot_block_evictor`. -/
def hot_block_evictor : EvictionPolicy (List (CacheKey × Nat)) := hotBlockPolicy 10

/-- An instrumented policy conforming to the `EvictionPolicy` interface,
used to observe exactly when the store invokes the access-recording hook:
its state is the log of `(key, time)` pairs passed to
`update_internal_cache`, and its `choose_victim` deterministically picks
the first resident key (never failing on a non-empty mapping, never
logging). -/
def logPolicy : EvictionPolicy (List (CacheKey × ℚ)) where
  choose_victim := fun st cache _now => .ok ((cache.head?.map (·.1)), st)
  update_internal_cache := fun st _cache key now => st ++ [(key, now)]

/-! ## Two stores sharing the module-level default policy instance

`Cache.__init__` defaults its `evictor` argument to the module-level
singleton `lFUDADecayFactorEvictor`, so two stores constructed without an
explicit evictor alias one `recent_accesses` dict.  The shared policy state
is threaded through the `get` calls of both stores. -/

/-- One step of a two-store world: run a `get` against store 1 or store 2,
both using the shared default decay policy state. -/
def runShared (file1 file2 : List Nat) :
    DecayState → Cache → Cache → List (Bool × Nat × BlockSize × ℚ) →
    Except String (DecayState × Cache × Cache)
  | st, c1, c2, [] => .ok (st, c1, c2)
  | st, c1, c2, (toFirst, offset, size, now) :: rest =>
      if toFirst then
        match Cache.get lFUDADecayFactorEvictor st c1 file1 offset size now with
        | .error e => .error e
        | .ok (_, c1', st') => runShared file1 file2 st' c1' c2 rest
      else
        match Cache.get lFUDADecayFactorEvictor st c2 file2 offset size now with
        | .error e => .error e
        | .ok (_, c2', st') => runShared file1 file2 st' c1 c2' rest

/-! ## Dictionary lemmas -/

theorem dictLookup_mem {κ ν : Type} [DecidableEq κ] {d : List (κ × ν)} {k : κ} {v : ν}
    (h : dictLookup d k = some v) : (k, v) ∈ d := by
  induction d with
  | nil => simp [dictLookup] at h
  | cons hd tl ih =>
      obtain ⟨k', v'⟩ := hd
      by_cases hk : k = k'
      · subst hk
        simp [dictLookup] at h
        subst h
        exact List.mem_cons_self _ _
      · simp [dictLookup, hk] at h
        exact List.mem_cons_of_mem _ (ih h)

theorem dictLookup_head {κ ν : Type} [DecidableEq κ] {k : κ} {v : ν} {tl : List (κ × ν)} :
    dictLookup ((k, v) :: tl) k = some v := by
  simp [dictLookup]

theorem mem_keys_contains {κ ν : Type} [DecidableEq κ] {d : List (κ × ν)} {k : κ}
    (h : k ∈ dictKeys d) : dictContains d k = true := by
  induction d with
  | nil => simp [dictKeys] at h
  | cons hd tl ih =>
      obtain ⟨k', v'⟩ := hd
      by_cases hk : k = k'
      · subst hk; simp [dictContains, dictLookup]
      · simp [dictKeys, hk] at h
        simp [dictContains, dictLookup, hk]
        have := ih (by simpa [dictKeys] using h)
        simpa [dictContains] using this

theorem dictLookup_dictInsert_self {κ ν : Type} [DecidableEq κ] (d : List (κ × ν)) (k : κ) (v : ν) :
    dictLookup (dictInsert d k v) k = some v := by
  induction d with
  | nil => simp [dictInsert, dictLookup]
  | cons hd tl ih =>
      obtain ⟨k', v'⟩ := hd
      by_cases hk : k = k'
      · subst hk; simp [dictInsert, dictLookup]
      · simp [dictInsert, dictLookup, hk, ih]

theorem dictLookup_dictInsert_ne {κ ν : Type} [DecidableEq κ] (d : List (κ × ν)) (k k2 : κ) (v : ν)
    (h : k2 ≠ k) : dictLookup (dictInsert d k v) k2 = dictLookup d k2 := by
  induction d with
  | nil => simp [dictInsert, dictLookup, h]
  | cons hd tl ih =>
      obtain ⟨k', v'⟩ := hd
      by_cases hk : k = k'
      · subst hk; simp [dictInsert, dictLookup, h]
      · by_cases hk2 : k2 = k'
        · subst hk2; simp [dictInsert, dictLookup, hk]
        · simp [dictInsert, dictLookup, hk, hk2, ih]

theorem dictLookup_append_self {κ ν : Type} [DecidableEq κ] {d : List (κ × ν)} {k : κ} (v : ν)
    (h : dictLookup d k = none) : dictLookup (d ++ [(k, v)]) k = some v := by
  induction d with
  | nil => simp [dictLookup]
  | cons hd tl ih =>
      obtain ⟨k', v'⟩ := hd
      by_cases hk : k = k'
      · subst hk; simp [dictLookup] at h
      · simp [dictLookup, hk] at h ⊢
        exact ih h

theorem dictLookup_append_ne {κ ν : Type} [DecidableEq κ] (d : List (κ × ν)) {k : κ} (k2 : κ) (v : ν)
    (h : k2 ≠ k) : dictLookup (d ++ [(k, v)]) k2 = dictLookup d k2 := by
  induction d with
  | nil => simp [dictLookup, h]
  | cons hd tl ih =>
      obtain ⟨k', v'⟩ := hd
      by_cases hk : k2 = k'
      · subst hk; simp [dictLookup]
      · simp [dictLookup, hk, ih]

theorem dictContains_dictInsert {κ ν : Type} [DecidableEq κ] (d : List (κ × ν)) (k k2 : κ) (v : ν) :
    dictContains (dictInsert d k v) k2 = (dictContains d k2 || decide (k2 = k)) := by
  by_cases hk : k2 = k
  · subst hk
    simp [dictContains, dictLookup_dictInsert_self]
  · simp [dictContains, dictLookup_dictInsert_ne _ _ _ _ hk, hk]

theorem dictLookup_dictErase_of_none {κ ν : Type} [DecidableEq κ] {d : List (κ × ν)} {k : κ}
    (k2 : κ) (h : dictLookup d k = none) : dictLookup (dictErase d k2) k = none := by
  induction d with
  | nil => simp [dictErase, dictLookup]
  | cons hd tl ih =>
      obtain ⟨k', v'⟩ := hd
      by_cases hk : k = k'
      · subst hk; simp [dictLookup] at h
      · simp [dictLookup, hk] at h
        by_cases hk2 : k2 = k'
        · subst hk2; simp [dictErase, h]
        · simp [dictErase, hk2, dictLookup, hk]
          exact ih h

/-! ## Sum-of-sizes lemmas -/

theorem sumSizes_dictInsert_of_none {d : CacheDict} {k : CacheKey} (v : CacheValue)
    (h : dictLookup d k = none) :
    sumSizes (dictInsert d k v) = sumSizes d + (v.data.length : Int) := by
  induction d with
  | nil => simp [dictInsert, sumSizes]
  | cons hd tl ih =>
      obtain ⟨k', v'⟩ := hd
      by_cases hk : k = k'
      · subst hk; simp [dictLookup] at h
      · simp [dictLookup, hk] at h
        simp [dictInsert, hk, sumSizes] at ih ⊢
        rw [ih h]; ring

theorem sumSizes_dictInsert_same_len {d : CacheDict} {k : CacheKey} {v0 : CacheValue}
    (v : CacheValue) (h : dictLookup d k = some v0) (hlen : v.data.length = v0.data.length) :
    sumSizes (dictInsert d k v) = sumSizes d := by
  induction d with
  | nil => simp [dictLookup] at h
  | cons hd tl ih =>
      obtain ⟨k', v'⟩ := hd
      by_cases hk : k = k'
      · subst hk
        simp [dictLookup] at h
        subst h
        simp [dictInsert, sumSizes, hlen]
      · simp [dictLookup, hk] at h
        simp [dictInsert, hk, sumSizes] at ih ⊢
        rw [ih h]

theorem sumSizes_dictErase {d : CacheDict} {k : CacheKey} {v : CacheValue}
    (h : dictLookup d k = some v) :
    sumSizes (dictErase d k) = sumSizes d - (v.data.length : Int) := by
  induction d with
  | nil => simp [dictLookup] at h
  | cons hd tl ih =>
      obtain ⟨k', v'⟩ := hd
      by_cases hk : k = k'
      · subst hk
        simp [dictLookup] at h
        subst h
        simp [dictErase, sumSizes]
      · simp [dictLookup, hk] at h
        simp [dictErase, hk, sumSizes] at ih ⊢
        rw [ih h]; ring

/-! ## The size invariant (C1) -/

theorem evict_inv {σ : Type} {ev : EvictionPolicy σ} {st : σ} {c : Cache}
    {data : List Nat} {key : CacheKey} {now : ℚ} {c1 : Cache} {st1 : σ}
    (h : Cache.evict ev st c data key now = .ok (c1, st1))
    (hinv : c.size = sumSizes c.cache) :
    c1.size = sumSizes c1.cache ∧ c1.max_size = c.max_size ∧
      (∀ k, dictLookup c.cache k = none → dictLookup c1.cache k = none) := by
  simp only [Cache.evict] at h
  split at h
  · simp only [Except.ok.injEq, Prod.mk.injEq] at h
    obtain ⟨hc, _⟩ := h
    subst hc
    exact ⟨hinv, rfl, fun k hk => hk⟩
  · split at h
    · split at h
      · exact absurd h (by simp)
      · exact absurd h (by simp)
      · rename_i victim st2 _
        split at h
        · exact absurd h (by simp)
        · rename_i v hv
          simp only [Except.ok.injEq, Prod.mk.injEq] at h
          obtain ⟨hc, _⟩ := h
          subst hc
          refine ⟨?_, rfl, fun k hk => dictLookup_dictErase_of_none victim hk⟩
          simp [sumSizes_dictErase hv, hinv]
    · simp only [Except.ok.injEq, Prod.mk.injEq] at h
      obtain ⟨hc, _⟩ := h
      subst hc
      exact ⟨hinv, rfl, fun k hk => hk⟩

theorem insert_inv {σ : Type} {ev : EvictionPolicy σ} {st : σ} {c : Cache}
    {key : CacheKey} {data : List Nat} {now : ℚ} {c1 : Cache} {st1 : σ}
    (h : Cache.insert ev st c key data now = .ok (c1, st1))
    (hkey : dictLookup c.cache key = none)
    (hinv : c.size = sumSizes c.cache) :
    c1.size = sumSizes c1.cache := by
  simp only [Cache.insert] at h
  split at h
  · exact absurd h (by simp)
  · rename_i c2 st2 hev
    simp only [Except.ok.injEq, Prod.mk.injEq] at h
    obtain ⟨hc, _⟩ := h
    subst hc
    obtain ⟨hinv2, _, hnone⟩ := evict_inv hev hinv
    simp [sumSizes_dictInsert_of_none _ (hnone key hkey), hinv2]

theorem insert_and_respond_inv {σ : Type} {ev : EvictionPolicy σ} {st : σ} {c : Cache}
    {file : List Nat} {key : CacheKey} {offset : Nat} {size : BlockSize} {now : ℚ}
    {r : CacheResponse} {c1 : Cache} {st1 : σ}
    (h : Cache.insert_and_respond ev st c file key offset size now = .ok (r, c1, st1))
    (hkey : dictLookup c.cache key = none)
    (hinv : c.size = sumSizes c.cache) :
    c1.size = sumSizes c1.cache := by
  simp only [Cache.insert_and_respond] at h
  split at h
  · exact absurd h (by simp)
  · rename_i c2 st2 hins
    simp only [Except.ok.injEq, Prod.mk.injEq] at h
    obtain ⟨_, hc, _⟩ := h
    subst hc
    exact insert_inv hins hkey hinv

theorem get_inv {σ : Type} {ev : EvictionPolicy σ} {st : σ} {c : Cache}
    {file : List Nat} {offset : Nat} {size : BlockSize} {now : ℚ}
    {r : CacheResponse} {c1 : Cache} {st1 : σ}
    (h : Cache.get ev st c file offset size now = .ok (r, c1, st1))
    (hinv : c.size = sumSizes c.cache) :
    c1.size = sumSizes c1.cache := by
  simp only [Cache.get] at h
  split at h
  · rename_i value hl
    simp only [Except.ok.injEq, Prod.mk.injEq] at h
    obtain ⟨_, hc, _⟩ := h
    subst hc
    show c.size = sumSizes (dictInsert c.cache ⟨offset, size⟩
      ⟨value.data, now, value.hit_count⟩)
    rw [sumSizes_dictInsert_same_len ⟨value.data, now, value.hit_count⟩ hl rfl]
    exact hinv
  · rename_i hl
    split at h
    · split at h
      · exact absurd h (by simp)
      · split at h
        · exact insert_and_respond_inv h hl hinv
        · simp only [Except.ok.injEq, Prod.mk.injEq] at h
          obtain ⟨_, hc, _⟩ := h
          subst hc
          exact hinv
      · exact insert_and_respond_inv h hl hinv
    · exact insert_and_respond_inv h hl hinv

/-- Claim C1 (confirmed).  For every backing store, every eviction policy and
every finite sequence of `get(offset, granularity)` calls that all return
normally, the store's `size` counter equals the exact sum of
`len(entry.data)` over the entries resident in the mapping, after each call.
(The state after each individual call of a normally-returning sequence is
the final state of running the corresponding prefix, so the statement over
all sequences covers every intermediate point.) -/
theorem size_invariant_preserved {σ : Type} (ev : EvictionPolicy σ) (file : List Nat)
    (st : σ) (c : Cache) (ops : List (Nat × BlockSize × ℚ)) (c' : Cache) (st' : σ)
    (hinv : c.size = sumSizes c.cache)
    (h : runGets ev file st c ops = .ok (c', st')) :
    c'.size = sumSizes c'.cache := by
  induction ops generalizing st c with
  | nil =>
      simp only [runGets, Except.ok.injEq, Prod.mk.injEq] at h
      obtain ⟨hc, _⟩ := h
      subst hc
      exact hinv
  | cons op rest ih =>
      obtain ⟨offset, size, now⟩ := op
      simp only [runGets] at h
      split at h
      · exact absurd h (by simp)
      · rename_i r c2 st2 hget
        exact ih st2 c2 (get_inv hget hinv) h

/-! ## Concrete scenarios -/

/-- C2 counterexample state: a 64-byte large entry and an 8-byte small
entry, `size = 72 = max_size`; only the small key is tracked by the default
policy, so it is the victim of the next over-capacity insertion. -/
def c2cache : CacheDict :=
  [(⟨0, BlockSize.B64⟩, ⟨List.replicate 64 3, 1, 1⟩),
   (⟨64, BlockSize.B8⟩, ⟨List.replicate 8 4, 2, 1⟩)]

/-- C2 counterexample policy state: only the small key has a recorded
access. -/
def c2st : DecayState := [(⟨64, BlockSize.B8⟩, [5])]

/-- C2 counterexample backing file (192 bytes). -/
def c2file : List Nat := List.replicate 192 9

/-- Claim C2 (counterexample).  An insertion performed by `get` at whose start
an evictable entry was resident (the policy chooses the 8-byte victim
`(64, small)`) and whose 64-byte payload alone fits within
`max_size = 72`, yet the post-insertion size is `128 > 72`: one eviction
pass frees 8 bytes while the insertion adds 64. -/
theorem capacity_claim_counterexample :
    decayChooseVictim (1/2) (decayUpdate c2st ⟨128, BlockSize.B64⟩ 6) c2cache 6 =
        some ⟨64, BlockSize.B8⟩ ∧
    (Cache.read_from_file 128 BlockSize.B64 c2file).length = 64 ∧ ((64 : Int) ≤ 72) ∧
    Cache.get lFUDADecayFactorEvictor c2st ⟨72, c2cache, 72⟩ c2file 128 BlockSize.B64 6 =
      .ok (⟨List.replicate 64 9, false⟩,
           ⟨72, [(⟨0, BlockSize.B64⟩, ⟨List.replicate 64 3, 1, 1⟩),
                 (⟨128, BlockSize.B64⟩, ⟨List.replicate 64 9, 6, 1⟩)], 128⟩,
           [(⟨64, BlockSize.B8⟩, [5]), (⟨128, BlockSize.B64⟩, [6])]) ∧
    ¬ ((128 : Int) ≤ 72) := by
  refine ⟨by decide, by decide, by decide, rfl, by decide⟩

/-- C3 state: small-granularity entries resident at offsets
`0, 8, ..., 56`, each holding its 8 bytes of the backing data. -/
def c3cache : CacheDict :=
  (List.range 8).map (fun i => (⟨8 * i, BlockSize.B8⟩, ⟨List.replicate 8 1, 1, 1⟩))

/-- Claim C3 (code bug).  With the `(0, large)` key absent and all eight
small-granularity keys resident, `get(0, large)` does **not** return the
concatenated data: the first loop iteration of
`check_and_retrieve_consecutive_blocks` finds `(0, small)` resident and
then executes `current_offset += BlockSize.B8`, which adds a plain `Enum`
member to an `int` and raises `TypeError` — contradicting the function's
own docstring ("returns their concatenated data if found"). -/
theorem coalescing_raises_typeerror :
    (∀ i ∈ List.range 8, dictContains c3cache ⟨8 * i, BlockSize.B8⟩ = true) ∧
    dictContains c3cache ⟨0, BlockSize.B64⟩ = false ∧
    Cache.get lFUDADecayFactorEvictor [] ⟨1024, c3cache, 64⟩ (List.replicate 128 7)
        0 BlockSize.B64 9 =
      .error "TypeError: unsupported operand type(s) for +=: int and BlockSize" := by
  refine ⟨by decide, by decide, rfl⟩

/-- Claim C4 (code bug).  A fresh store with `max_size = 8` under the default
decayed-recency policy: the first insertion records nothing (the hook is
skipped while the mapping is empty), so at the second, over-capacity
insertion the only tracked key is the one being inserted — which is not yet
resident — and `choose_victim` returns `None`.  `Cache.evict` then runs
`self.cache[None]`, raising `KeyError` instead of skipping eviction and
returning normally. -/
theorem none_victim_raises_keyerror :
    runGets lFUDADecayFactorEvictor (List.replicate 16 0) [] (Cache.init 8)
      [(0, BlockSize.B8, 1), (8, BlockSize.B8, 2)] = .error "KeyError: None" := rfl

/-- Claim C5 (counterexample).  An insertion performed by `get` on an *empty*
mapping never invokes the access-recording hook: running the instrumented
policy (whose state logs every `update_internal_cache` call), the log is
still empty after the insertion completes, although the claim requires
exactly one invocation. -/
theorem record_hook_skipped_on_empty_mapping :
    Cache.get logPolicy [] (Cache.init 1024) (List.replicate 16 1) 0 BlockSize.B8 3 =
      .ok (⟨List.replicate 8 1, false⟩,
           ⟨1024, [(⟨0, BlockSize.B8⟩, ⟨List.replicate 8 1, 3, 1⟩)], 8⟩,
           ([] : List (CacheKey × ℚ))) := rfl

/-- Claim C6 (code bug).  A 4-byte backing store and `get(0, small)`: the
backing-store read returns only 4 bytes, yet the buffer is inserted into
the mapping unchanged — its length differs from the small granularity's 8
bytes, which the claim (and spec §7) says must be rejected before
insertion. -/
theorem short_read_buffer_enters_mapping :
    Cache.get lFUDADecayFactorEvictor [] (Cache.init 1024) [1, 2, 3, 4] 0 BlockSize.B8 5 =
      .ok (⟨[1, 2, 3, 4], false⟩,
           ⟨1024, [(⟨0, BlockSize.B8⟩, ⟨[1, 2, 3, 4], 5, 1⟩)], 4⟩,
           ([] : DecayState)) ∧
    ([1, 2, 3, 4] : List Nat).length ≠ BlockSize.B8.value := by
  refine ⟨rfl, by decide⟩

/-- Modelled from the spec's words for the C8 comparison only: the
frequency+recency combined score with the large-granularity score *halved*
("Halve the combined score for large keys"), in contrast to the source's
division by 8. -/
def specHalvedScore (now : ℚ) (key : CacheKey) (freq : Nat) (lastAccess : Option ℚ) : ℚ :=
  let combined : ℚ := (freq : ℚ) + lfudaRecency now lastAccess
  if key.size = BlockSize.B8 then combined else combined / 2

/-- C8 counterexample policy state: a small key with frequency 2 and a
large key with frequency 9, neither with a recorded last access. -/
def c8st : LFUDAState :=
  { frequency_count := [(⟨0, BlockSize.B8⟩, 2), (⟨8, BlockSize.B64⟩, 9)],
    last_access_time := [] }

/-- C8 counterexample mapping: both tracked keys resident. -/
def c8cache : CacheDict :=
  [(⟨0, BlockSize.B8⟩, ⟨List.replicate 8 0, 1, 1⟩),
   (⟨8, BlockSize.B64⟩, ⟨List.replicate 64 0, 1, 1⟩)]

/-- Claim C8 (counterexample).  The code divides a large key's combined score
by 8, not by 2: with frequencies 2 (small) and 9 (large) and no recorded
accesses, `choose_victim` returns the large key (code score `9/8 < 2`),
although under the claim's halved scoring the small key scores strictly
lower (`2 < 9/2`), so the returned key does not minimise the halved
score. -/
theorem lfuda_halved_score_counterexample :
    dictContains c8cache ⟨0, BlockSize.B8⟩ = true ∧
    dictContains c8cache ⟨8, BlockSize.B64⟩ = true ∧
    lfudaChooseVictim c8st c8cache 100 = some ⟨8, BlockSize.B64⟩ ∧
    specHalvedScore 100 ⟨0, BlockSize.B8⟩ 2 (dictLookup c8st.last_access_time ⟨0, BlockSize.B8⟩) <
      specHalvedScore 100 ⟨8, BlockSize.B64⟩ 9 (dictLookup c8st.last_access_time ⟨8, BlockSize.B64⟩) := by
  refine ⟨by decide, by decide, by with_unfolding_all decide, by with_unfolding_all decide⟩

/-- Claim C9 (counterexample).  Two of the five variants can fail on a
resident mapping: the hot-block policy with no qualifying candidate (here:
an empty hotness map and an entry whose last access is older than the
threshold) reaches `del self.hot_blocks[None]` and raises `KeyError`; the
naive-LFU policy applied to an empty mapping raises `ValueError` inside
`min`. -/
theorem hot_block_choose_victim_fails :
    hotBlockChooseVictim 10 [] [(⟨0, BlockSize.B8⟩, ⟨List.replicate 8 0, 0, 1⟩)] 100 =
        .error "KeyError: None" ∧
    lfuChooseVictim [] [] = .error "ValueError: min() iterable argument is empty" := by
  refine ⟨by with_unfolding_all rfl, rfl⟩

/-! ## C10: interference through the shared module-level default policy -/

/-- Store 1's backing file for the C10 scenario. -/
def c10file1 : List Nat := List.replicate 64 1

/-- Store 2's backing file for the C10 scenario. -/
def c10file2 : List Nat := List.replicate 128 2

/-- The C10 baseline run: store 1 only — three fitting insertions, then an
over-capacity fourth. -/
def c10opsA : List (Bool × Nat × BlockSize × ℚ) :=
  [(true, 0, BlockSize.B8, 10), (true, 8, BlockSize.B8, 11), (true, 16, BlockSize.B8, 12),
   (true, 24, BlockSize.B8, 14)]

/-- The C10 interfered run: the same four store-1 calls with the same
timestamps, with two store-2 calls in between — the second of which inserts
the key `(8, small)` into store 2 and thereby records an access for it in
the shared policy state. -/
def c10opsB : List (Bool × Nat × BlockSize × ℚ) :=
  [(true, 0, BlockSize.B8, 10), (true, 8, BlockSize.B8, 11), (true, 16, BlockSize.B8, 12),
   (false, 100, BlockSize.B8, 25/2), (false, 8, BlockSize.B8, 13),
   (true, 24, BlockSize.B8, 14)]

/-- Claim C10 (confirmed).  Two stores built without an explicit `evictor`
share the module-level `lFUDADecayFactorEvictor` singleton (the mutable
default argument of `Cache.__init__`), so store 2's activity mutates the
shared recency state: with identical store-1 calls at identical times, the
baseline run evicts `(8, small)` from store 1, while the run that only adds
store-2 activity evicts `(16, small)` instead. -/
theorem shared_default_policy_interference :
    c10opsB.filter (fun p => p.1) = c10opsA ∧
    (runShared c10file1 c10file2 [] (Cache.init 24) (Cache.init 1024) c10opsA).toOption.map
        (fun r => (dictContains r.2.1.cache ⟨8, BlockSize.B8⟩,
                   dictContains r.2.1.cache ⟨16, BlockSize.B8⟩)) =
      some (false, true) ∧
    (runShared c10file1 c10file2 [] (Cache.init 24) (Cache.init 1024) c10opsB).toOption.map
        (fun r => (dictContains r.2.1.cache ⟨8, BlockSize.B8⟩,
                   dictContains r.2.1.cache ⟨16, BlockSize.B8⟩)) =
      some (true, false) := by
  refine ⟨by decide, by with_unfolding_all rfl, by with_unfolding_all rfl⟩

/-! ## Properties of the strict-minimum selection loop -/

theorem selectMin_best_le (cache : CacheDict) :
    ∀ (l : List (CacheKey × ℚ)) (vic : Option CacheKey) (m : ℚ),
      ∃ m', (selectMin cache l (vic, some m)).2 = some m' ∧ m' ≤ m := by
  intro l
  induction l with
  | nil => intro vic m; exact ⟨m, rfl, le_refl m⟩
  | cons p rest ih =>
      intro vic m
      obtain ⟨k, s⟩ := p
      simp only [selectMin]
      split
      · rename_i hcond
        rw [Bool.and_eq_true] at hcond
        have hs : s < m := by simpa [ltOpt] using hcond.2
        obtain ⟨m', hm', hle⟩ := ih (some k) s
        exact ⟨m', hm', le_trans hle (le_of_lt hs)⟩
      · exact ih vic m

theorem selectMin_bound (cache : CacheDict) :
    ∀ (l : List (CacheKey × ℚ)) (vic : Option CacheKey) (best : Option ℚ)
      (k : CacheKey) (s : ℚ),
      (k, s) ∈ l → dictContains cache k = true →
      ∃ m', (selectMin cache l (vic, best)).2 = some m' ∧ m' ≤ s := by
  intro l
  induction l with
  | nil => intro _ _ _ _ h _; simp at h
  | cons p rest ih =>
      intro vic best k s hmem hres
      obtain ⟨k0, s0⟩ := p
      rcases List.mem_cons.mp hmem with heq | htail
      · obtain ⟨hk, hs⟩ := Prod.mk.injEq .. ▸ heq
        subst hk; subst hs
        simp only [selectMin]
        split
        · obtain ⟨m', hm', hle⟩ := selectMin_best_le cache rest (some k) s
          exact ⟨m', hm', hle⟩
        · rename_i hcond
          rw [Bool.and_eq_true, not_and] at hcond
          have hlt : ltOpt s best = false :=
            Bool.not_eq_true _ ▸ fun hc => hcond (by simpa [dictContains] using hres) hc
          match best, hlt with
          | some m, hlt =>
              have hms : m ≤ s := by
                have := hlt
                simp [ltOpt] at this
                exact this
              obtain ⟨m', hm', hle⟩ := selectMin_best_le cache rest vic m
              exact ⟨m', hm', le_trans hle hms⟩
      · simp only [selectMin]
        split
        · exact ih (some k0) (some s0) k s htail hres
        · exact ih vic best k s htail hres

theorem selectMin_provenance (cache : CacheDict) :
    ∀ (l : List (CacheKey × ℚ)) (vic : Option CacheKey) (best : Option ℚ),
      selectMin cache l (vic, best) = (vic, best) ∨
      ∃ k s, (k, s) ∈ l ∧ dictContains cache k = true ∧
        selectMin cache l (vic, best) = (some k, some s) := by
  intro l
  induction l with
  | nil => intro vic best; exact Or.inl rfl
  | cons p rest ih =>
      intro vic best
      obtain ⟨k0, s0⟩ := p
      simp only [selectMin]
      split
      · rename_i hcond
        rw [Bool.and_eq_true] at hcond
        rcases ih (some k0) (some s0) with h | ⟨k, s, hmem, hres, h⟩
        · exact Or.inr ⟨k0, s0, List.mem_cons_self _ _, hcond.1, h⟩
        · exact Or.inr ⟨k, s, List.mem_cons_of_mem _ hmem, hres, h⟩
      · rcases ih vic best with h | ⟨k, s, hmem, hres, h⟩
        · exact Or.inl h
        · exact Or.inr ⟨k, s, List.mem_cons_of_mem _ hmem, hres, h⟩

theorem selectMin_skip_all (cache : CacheDict) :
    ∀ (l : List (CacheKey × ℚ)) (acc : Option CacheKey × Option ℚ),
      (∀ p ∈ l, dictContains cache p.1 = false) → selectMin cache l acc = acc := by
  intro l
  induction l with
  | nil => intro acc _; rfl
  | cons p rest ih =>
      intro acc hall
      obtain ⟨k0, s0⟩ := p
      obtain ⟨vic, best⟩ := acc
      have h0 : dictContains cache k0 = false := hall (k0, s0) (List.mem_cons_self _ _)
      simp only [selectMin, h0, Bool.false_and, Bool.false_eq_true, if_false]
      exact ih _ (fun p hp => hall p (List.mem_cons_of_mem _ hp))

/-! ## C7: the decayed-recency policy -/

/-- Claim C7 (confirmed).  For the decayed-recency policy with decay factor
`d`: a victim returned by `choose_victim` is resident, and its recency
score — `1/(2·now − Σ tᵢ·dⁱ)` over its queue ordered oldest to newest,
`0` for an empty queue, divided by 8 for a large-granularity key (all
packaged in `decayScore`) — is minimal among all tracked keys that are
resident.  `record_access` (`update_internal_cache`) appends `now` to the
key's queue, creating the queue if absent, keeping only the latest 10
instants by dropping from the front, and leaving every other key's queue
unchanged. -/
theorem decay_policy_spec (d now : ℚ) (ra : DecayState) (cache : CacheDict)
    (key k : CacheKey)
    (hv : decayChooseVictim d ra cache now = some k) :
    (dictContains cache k = true ∧
     ∃ q, (k, q) ∈ ra ∧
       ∀ k2 q2, (k2, q2) ∈ ra → dictContains cache k2 = true →
         decayScore d now k q ≤ decayScore d now k2 q2) ∧
    (dictLookup (decayUpdate ra key now) key =
        some ((((dictLookup ra key).getD []) ++ [now]).drop
          ((((dictLookup ra key).getD []) ++ [now]).length - 10)) ∧
     ∀ k2, k2 ≠ key → dictLookup (decayUpdate ra key now) k2 = dictLookup ra k2) := by
  constructor
  · rcases selectMin_provenance cache
        (ra.map (fun kq => (kq.1, decayScore d now kq.1 kq.2))) none none with h | h
    · rw [decayChooseVictim, h] at hv
      exact absurd hv (by simp)
    · obtain ⟨k', s, hmem, hres, hsel⟩ := h
      have hk' : k' = k := by
        rw [decayChooseVictim, hsel] at hv
        simpa using hv
      subst hk'
      obtain ⟨⟨ka, qa⟩, hqa, heq⟩ := List.mem_map.mp hmem
      obtain ⟨hk1, hs1⟩ := Prod.mk.injEq .. ▸ heq
      subst hk1
      refine ⟨hres, qa, hqa, fun k2 q2 hmem2 hres2 => ?_⟩
      have hmem2' : (k2, decayScore d now k2 q2) ∈
          ra.map (fun kq => (kq.1, decayScore d now kq.1 kq.2)) :=
        List.mem_map.mpr ⟨(k2, q2), hmem2, rfl⟩
      obtain ⟨m', hm', hle⟩ := selectMin_bound cache _ none none _ _ hmem2' hres2
      rw [hsel] at hm'
      have hsm : s = m' := by simpa using hm'
      have hks : decayScore d now ka qa = s := hs1
      exact (le_of_eq (hks.trans hsm)).trans hle
  · unfold decayUpdate
    match hq : dictLookup ra key with
    | none =>
        refine ⟨?_, fun k2 hk2 => dictLookup_append_ne ra k2 [now] hk2⟩
        rw [dictLookup_append_self [now] hq]
        simp
    | some q =>
        refine ⟨?_, fun k2 hk2 => dictLookup_dictInsert_ne ra key k2 _ hk2⟩
        rw [dictLookup_dictInsert_self]
        simp [appendCapped]

/-- C7 witness state: two tracked small keys with one recorded access each
(at times 3 and 4), both resident. -/
def w7ra : DecayState := [(⟨0, BlockSize.B8⟩, [3]), (⟨8, BlockSize.B8⟩, [4])]

/-- C7 witness mapping. -/
def w7cache : CacheDict :=
  [(⟨0, BlockSize.B8⟩, ⟨List.replicate 8 0, 3, 1⟩),
   (⟨8, BlockSize.B8⟩, ⟨List.replicate 8 0, 4, 1⟩)]

/-- Witness for `decay_policy_spec` at `now = 5`: the victim is the key
accessed at time 3 (score `1/7 < 1/6`). -/
theorem decay_policy_spec_witness :
    (dictContains w7cache ⟨0, BlockSize.B8⟩ = true ∧
     ∃ q, (⟨0, BlockSize.B8⟩, q) ∈ w7ra ∧
       ∀ k2 q2, (k2, q2) ∈ w7ra → dictContains w7cache k2 = true →
         decayScore (1/2) 5 ⟨0, BlockSize.B8⟩ q ≤ decayScore (1/2) 5 k2 q2) ∧
    (dictLookup (decayUpdate w7ra ⟨0, BlockSize.B8⟩ 5) ⟨0, BlockSize.B8⟩ =
        some ((((dictLookup w7ra ⟨0, BlockSize.B8⟩).getD []) ++ [5]).drop
          ((((dictLookup w7ra ⟨0, BlockSize.B8⟩).getD []) ++ [5]).length - 10)) ∧
     ∀ k2, k2 ≠ ⟨0, BlockSize.B8⟩ →
        dictLookup (decayUpdate w7ra ⟨0, BlockSize.B8⟩ 5) k2 = dictLookup w7ra k2) :=
  decay_policy_spec (1/2) 5 w7ra w7cache ⟨0, BlockSize.B8⟩ ⟨0, BlockSize.B8⟩
    (by with_unfolding_all decide)

/-! ## C8: the frequency+recency policy -/

theorem dictInsert_of_not_contains {κ ν : Type} [DecidableEq κ] {d : List (κ × ν)} {k : κ}
    (v : ν) (h : dictContains d k = false) : dictInsert d k v = d ++ [(k, v)] := by
  induction d with
  | nil => rfl
  | cons hd tl ih =>
      obtain ⟨k', v'⟩ := hd
      by_cases hk : k = k'
      · subst hk; simp [dictContains, dictLookup] at h
      · simp [dictContains, dictLookup, hk] at h
        simp [dictInsert, hk, ih (by simpa [dictContains] using h)]

theorem dictContains_append_single {κ ν : Type} [DecidableEq κ] (d : List (κ × ν))
    (k k2 : κ) (v : ν) :
    dictContains (d ++ [(k, v)]) k2 = (dictContains d k2 || decide (k2 = k)) := by
  by_cases hk : k2 = k
  · subst hk
    match hl : dictLookup d k2 with
    | none => simp [dictContains, dictLookup_append_self v hl, hl]
    | some v0 =>
        have : dictLookup (d ++ [(k2, v)]) k2 = some v0 := by
          induction d with
          | nil => simp [dictLookup] at hl
          | cons hd tl ih =>
              obtain ⟨k', v'⟩ := hd
              by_cases hk' : k2 = k'
              · subst hk'; simp [dictLookup] at hl ⊢; exact hl
              · simp [dictLookup, hk'] at hl ⊢; exact ih hl
        simp [dictContains, this, hl]
  · simp [dictContains, dictLookup_append_ne d k2 v hk, hk]

/-- Folding dict assignments of fresh, pairwise-distinct keys appends the
corresponding entries in order. -/
theorem foldl_dictInsert_eq_map {β ν : Type} (f : CacheKey × β → ν) :
    ∀ (l : List (CacheKey × β)) (acc : List (CacheKey × ν)),
      (∀ p ∈ l, dictContains acc p.1 = false) → (l.map (·.1)).Nodup →
      l.foldl (fun a p => dictInsert a p.1 (f p)) acc = acc ++ l.map (fun p => (p.1, f p)) := by
  intro l
  induction l with
  | nil => intro acc _ _; simp
  | cons p rest ih =>
      intro acc hfresh hnodup
      obtain ⟨k0, b0⟩ := p
      simp only [List.foldl_cons]
      rw [dictInsert_of_not_contains (f (k0, b0)) (hfresh (k0, b0) (List.mem_cons_self _ _))]
      rw [List.map_cons, List.nodup_cons] at hnodup
      rw [ih (acc ++ [(k0, f (k0, b0))]) ?fresh hnodup.2]
      · simp
      case fresh =>
        intro q hq
        rw [dictContains_append_single]
        have h1 : dictContains acc q.1 = false := hfresh q (List.mem_cons_of_mem _ hq)
        have h2 : q.1 ≠ k0 := by
          intro hqe
          exact hnodup.1 (hqe ▸ List.mem_map_of_mem (·.1) hq)
        simp [h1, h2]

theorem lfudaScores_eq_map {st : LFUDAState} {now : ℚ}
    (hwf : DictWF st.frequency_count) :
    lfudaScores st now = st.frequency_count.map
      (fun kf => (kf.1, lfudaScore now kf.1 kf.2 (dictLookup st.last_access_time kf.1))) := by
  unfold lfudaScores
  rw [foldl_dictInsert_eq_map
        (fun kf => lfudaScore now kf.1 kf.2 (dictLookup st.last_access_time kf.1))
        st.frequency_count [] (fun p _ => rfl) hwf]
  simp

/-- Claim C8 (amended: the combined score of a large-granularity key is
divided by 8, not halved).  For the frequency+recency policy: a victim
returned by `choose_victim` is resident, and its combined score —
`frequency + recency` with `recency = 1` when the elapsed time is exactly
zero, `0` when no last access is recorded, else `1/elapsed`, the whole
divided by 8 for a large-granularity key (packaged in `lfudaScore`) — is
minimal among all tracked keys that are resident.  `record_access`
(`update_internal_cache`) increments the key's frequency (creating it at 0)
and overwrites its last-access time with `now`, leaving other keys
unchanged. -/
theorem lfuda_policy_spec (now : ℚ) (st : LFUDAState) (cache : CacheDict)
    (key k : CacheKey)
    (hwf : DictWF st.frequency_count)
    (hv : lfudaChooseVictim st cache now = some k) :
    (dictContains cache k = true ∧
     ∃ f, (k, f) ∈ st.frequency_count ∧
       ∀ k2 f2, (k2, f2) ∈ st.frequency_count → dictContains cache k2 = true →
         lfudaScore now k f (dictLookup st.last_access_time k) ≤
           lfudaScore now k2 f2 (dictLookup st.last_access_time k2)) ∧
    (dictLookup (lfudaUpdate st key now).frequency_count key =
        some ((dictLookup st.frequency_count key).getD 0 + 1) ∧
     dictLookup (lfudaUpdate st key now).last_access_time key = some now ∧
     ∀ k2, k2 ≠ key →
        dictLookup (lfudaUpdate st key now).frequency_count k2 =
            dictLookup st.frequency_count k2 ∧
        dictLookup (lfudaUpdate st key now).last_access_time k2 =
            dictLookup st.last_access_time k2) := by
  constructor
  · have hmap := @lfudaScores_eq_map st now hwf
    rcases selectMin_provenance cache (lfudaScores st now) none none with h | h
    · rw [lfudaChooseVictim, h] at hv
      exact absurd hv (by simp)
    · obtain ⟨k', s, hmem, hres, hsel⟩ := h
      have hk' : k' = k := by
        rw [lfudaChooseVictim, hsel] at hv
        simpa using hv
      subst hk'
      rw [hmap] at hmem
      obtain ⟨⟨ka, fa⟩, hfa, heq⟩ := List.mem_map.mp hmem
      obtain ⟨hk1, hs1⟩ := Prod.mk.injEq .. ▸ heq
      subst hk1
      refine ⟨hres, fa, hfa, fun k2 f2 hmem2 hres2 => ?_⟩
      have hmem2' : (k2, lfudaScore now k2 f2 (dictLookup st.last_access_time k2)) ∈
          lfudaScores st now := by
        rw [hmap]
        exact List.mem_map.mpr ⟨(k2, f2), hmem2, rfl⟩
      obtain ⟨m', hm', hle⟩ := selectMin_bound cache _ none none _ _ hmem2' hres2
      rw [hsel] at hm'
      have hsm : s = m' := by simpa using hm'
      have hks : lfudaScore now ka fa (dictLookup st.last_access_time ka) = s := hs1
      exact (le_of_eq (hks.trans hsm)).trans hle
  · refine ⟨?_, ?_, fun k2 hk2 => ⟨?_, ?_⟩⟩
    · show dictLookup (dictInsert st.frequency_count key _) key = _
      rw [dictLookup_dictInsert_self]
    · show dictLookup (dictInsert st.last_access_time key now) key = some now
      rw [dictLookup_dictInsert_self]
    · exact dictLookup_dictInsert_ne st.frequency_count key k2 _ hk2
    · exact dictLookup_dictInsert_ne st.last_access_time key k2 now hk2

/-- C8 witness state: two resident small keys, frequencies 2 and 1, last
accesses 4 and 5; at `now = 6` the scores are `2 + 1/2` and `1 + 1`, so the
second key is the victim. -/
def w8st : LFUDAState :=
  { frequency_count := [(⟨0, BlockSize.B8⟩, 2), (⟨8, BlockSize.B8⟩, 1)],
    last_access_time := [(⟨0, BlockSize.B8⟩, 4), (⟨8, BlockSize.B8⟩, 5)] }

/-- C8 witness mapping. -/
def w8cache : CacheDict :=
  [(⟨0, BlockSize.B8⟩, ⟨List.replicate 8 0, 4, 1⟩),
   (⟨8, BlockSize.B8⟩, ⟨List.replicate 8 0, 5, 1⟩)]

/-- Witness for `lfuda_policy_spec`. -/
theorem lfuda_policy_spec_witness :
    (dictContains w8cache ⟨8, BlockSize.B8⟩ = true ∧
     ∃ f, (⟨8, BlockSize.B8⟩, f) ∈ w8st.frequency_count ∧
       ∀ k2 f2, (k2, f2) ∈ w8st.frequency_count → dictContains w8cache k2 = true →
         lfudaScore 6 ⟨8, BlockSize.B8⟩ f (dictLookup w8st.last_access_time ⟨8, BlockSize.B8⟩) ≤
           lfudaScore 6 k2 f2 (dictLookup w8st.last_access_time k2)) ∧
    (dictLookup (lfudaUpdate w8st ⟨0, BlockSize.B8⟩ 6).frequency_count ⟨0, BlockSize.B8⟩ =
        some ((dictLookup w8st.frequency_count ⟨0, BlockSize.B8⟩).getD 0 + 1) ∧
     dictLookup (lfudaUpdate w8st ⟨0, BlockSize.B8⟩ 6).last_access_time ⟨0, BlockSize.B8⟩ =
        some 6 ∧
     ∀ k2, k2 ≠ ⟨0, BlockSize.B8⟩ →
        dictLookup (lfudaUpdate w8st ⟨0, BlockSize.B8⟩ 6).frequency_count k2 =
            dictLookup w8st.frequency_count k2 ∧
        dictLookup (lfudaUpdate w8st ⟨0, BlockSize.B8⟩ 6).last_access_time k2 =
            dictLookup w8st.last_access_time k2) :=
  lfuda_policy_spec 6 w8st w8cache ⟨0, BlockSize.B8⟩ ⟨8, BlockSize.B8⟩
    (by unfold DictWF; decide) (by with_unfolding_all decide)

/-! ## C2: capacity after insertion -/

theorem evict_capacity {σ : Type} {ev : EvictionPolicy σ} {st : σ} {c : Cache}
    {data : List Nat} {key : CacheKey} {now : ℚ} {c2 : Cache} {st2 : σ}
    (h : Cache.evict ev st c data key now = .ok (c2, st2))
    (hne : c.cache ≠ [])
    (hpre : c.size ≤ c.max_size)
    (hbig : ∀ p ∈ c.cache, data.length ≤ p.2.data.length) :
    c2.size + (data.length : Int) ≤ c2.max_size := by
  simp only [Cache.evict] at h
  split at h
  · exact absurd (by assumption) hne
  · split at h
    · rename_i hov
      split at h
      · exact absurd h (by simp)
      · exact absurd h (by simp)
      · rename_i victim st3 _
        split at h
        · exact absurd h (by simp)
        · rename_i v hv
          simp only [Except.ok.injEq, Prod.mk.injEq] at h
          obtain ⟨hc, _⟩ := h
          subst hc
          show c.size - (v.data.length : Int) + (data.length : Int) ≤ c.max_size
          have hvd : data.length ≤ v.data.length := hbig (victim, v) (dictLookup_mem hv)
          have : (data.length : Int) ≤ (v.data.length : Int) := Int.ofNat_le.mpr hvd
          omega
    · rename_i hov
      simp only [Except.ok.injEq, Prod.mk.injEq] at h
      obtain ⟨hc, _⟩ := h
      subst hc
      omega

/-- Claim C2 (amended).  The single eviction pass can free fewer bytes than
the incoming payload adds, so the claim needs two extra premises: the
pre-insertion size is within the bound and every resident entry is at least
as long as the payload (hence so is whichever victim the policy picks).
Under those premises — together with the claim's own conditions that the
mapping was non-empty and the payload alone fits `max_size` — any insertion
that returns normally ends with `current_size ≤ max_size`. -/
theorem insert_capacity_amended {σ : Type} (ev : EvictionPolicy σ) (st : σ) (c : Cache)
    (key : CacheKey) (data : List Nat) (now : ℚ) (c' : Cache) (st' : σ)
    (hne : c.cache ≠ [])
    (_hlen : (data.length : Int) ≤ c.max_size)
    (hpre : c.size ≤ c.max_size)
    (hbig : ∀ p ∈ c.cache, data.length ≤ p.2.data.length)
    (h : Cache.insert ev st c key data now = .ok (c', st')) :
    c'.size ≤ c'.max_size := by
  simp only [Cache.insert] at h
  split at h
  · exact absurd h (by simp)
  · rename_i c2 st2 hev
    simp only [Except.ok.injEq, Prod.mk.injEq] at h
    obtain ⟨hc, _⟩ := h
    subst hc
    exact evict_capacity hev hne hpre hbig

/-- C2 witness store: one resident 8-byte entry, `size = max_size = 8`. -/
def w2c : Cache := ⟨8, [(⟨0, BlockSize.B8⟩, ⟨List.replicate 8 0, 1, 1⟩)], 8⟩

/-- C2 witness policy state: the resident key is tracked. -/
def w2st : DecayState := [(⟨0, BlockSize.B8⟩, [1])]

/-- Witness for `insert_capacity_amended`: inserting an 8-byte payload
evicts the equally-long resident entry and ends exactly at the bound. -/
theorem insert_capacity_amended_witness :
    (w2c.cache ≠ [] ∧ ((8 : Int) ≤ w2c.max_size) ∧ w2c.size ≤ w2c.max_size) ∧
    (⟨8, [(⟨8, BlockSize.B8⟩, ⟨List.replicate 8 2, 3, 1⟩)], 8⟩ : Cache).size ≤
      (⟨8, [(⟨8, BlockSize.B8⟩, ⟨List.replicate 8 2, 3, 1⟩)], 8⟩ : Cache).max_size :=
  ⟨⟨by decide, by decide, by decide⟩,
   insert_capacity_amended lFUDADecayFactorEvictor w2st w2c ⟨8, BlockSize.B8⟩
     (List.replicate 8 2) 3
     ⟨8, [(⟨8, BlockSize.B8⟩, ⟨List.replicate 8 2, 3, 1⟩)], 8⟩
     [(⟨0, BlockSize.B8⟩, [1]), (⟨8, BlockSize.B8⟩, [3])]
     (by decide) (by decide) (by decide) (by decide)
     (by with_unfolding_all rfl)⟩

/-! ## C5: the access-recording hook -/

/-- Claim C5 (amended).  An insertion performed by `get` invokes the active
policy's access-recording hook for the inserted key exactly once when the
mapping is non-empty at the start of the insertion — but *not* when the
mapping is empty, in which case the hook is not invoked at all.  Stated
over the instrumented conforming policy whose state logs each hook
invocation: the final log extends the initial one with exactly
`[(key, now)]` when the mapping was non-empty, and is unchanged when it was
empty; the insertion itself always returns normally under this policy. -/
theorem record_hook_called_once_iff_nonempty (st : List (CacheKey × ℚ)) (c : Cache)
    (key : CacheKey) (data : List Nat) (now : ℚ) :
    ∃ c', Cache.insert logPolicy st c key data now =
      .ok (c', if c.cache = [] then st else st ++ [(key, now)]) := by
  match hc : c.cache with
  | [] =>
      refine ⟨{ c with size := c.size + (data.length : Int),
                       cache := dictInsert c.cache key ⟨data, now, 1⟩ }, ?_⟩
      simp [Cache.insert, Cache.evict, hc]
  | hd :: tl =>
      obtain ⟨k0, v0⟩ := hd
      by_cases hov : c.size + (data.length : Int) > c.max_size
      · refine ⟨{ c with
            size := c.size - (v0.data.length : Int) + (data.length : Int),
            cache := dictInsert (dictErase c.cache k0) key ⟨data, now, 1⟩ }, ?_⟩
        simp [Cache.insert, Cache.evict, hc, hov, logPolicy, dictLookup]
      · refine ⟨{ c with size := c.size + (data.length : Int),
                         cache := dictInsert c.cache key ⟨data, now, 1⟩ }, ?_⟩
        simp [Cache.insert, Cache.evict, hc, hov, logPolicy]

/-! ## C9: the choose_victim contracts of the five variants -/

theorem dictKeys_dictInsert_mem {κ ν : Type} [DecidableEq κ] (d : List (κ × ν)) (k k2 : κ)
    (v : ν) : k2 ∈ dictKeys (dictInsert d k v) ↔ (k2 ∈ dictKeys d ∨ k2 = k) := by
  induction d with
  | nil => simp [dictInsert, dictKeys, eq_comm]
  | cons hd tl ih =>
      obtain ⟨k', v'⟩ := hd
      by_cases hk : k = k'
      · subst hk
        rw [show dictInsert ((k, v') :: tl) k v = (k, v) :: tl from by simp [dictInsert]]
        simp only [dictKeys, List.map_cons, List.mem_cons]
        tauto
      · rw [show dictInsert ((k', v') :: tl) k v = (k', v') :: dictInsert tl k v from by
          simp [dictInsert, hk]]
        simp only [dictKeys, List.map_cons, List.mem_cons] at ih ⊢
        tauto

theorem dictKeys_foldl_bump_mem {β ν : Type} (g : CacheKey × β → ν) :
    ∀ (l : List (CacheKey × β)) (acc : List (CacheKey × ν)) (k : CacheKey),
      k ∈ dictKeys (l.foldl (fun a p => dictInsert a p.1 (g p)) acc) ↔
        (k ∈ dictKeys acc ∨ k ∈ l.map (·.1)) := by
  intro l
  induction l with
  | nil => intro acc k; simp
  | cons p rest ih =>
      intro acc k
      simp only [List.foldl_cons, List.map_cons, List.mem_cons]
      rw [ih, dictKeys_dictInsert_mem]
      tauto

theorem mem_dictKeys_iff {κ ν : Type} [DecidableEq κ] (d : List (κ × ν)) (k : κ) :
    k ∈ dictKeys d ↔ ∃ v, (k, v) ∈ d := by
  simp only [dictKeys, List.mem_map]
  constructor
  · rintro ⟨⟨k', v⟩, hmem, rfl⟩
    exact ⟨v, hmem⟩
  · rintro ⟨v, hmem⟩
    exact ⟨(k, v), hmem, rfl⟩

theorem selectMaxPos_some (cache : CacheDict) :
    ∀ (l : List (CacheKey × Nat)) (k : CacheKey) (best : Nat),
      selectMaxPos cache l (some k, best) ≠ none := by
  intro l
  induction l with
  | nil => intro k best h; simp [selectMaxPos] at h
  | cons p rest ih =>
      intro k best
      obtain ⟨k0, s0⟩ := p
      simp only [selectMaxPos]
      split
      · exact ih k0 s0
      · exact ih k best

theorem selectMaxPos_resident (cache : CacheDict) :
    ∀ (l : List (CacheKey × Nat)) (vic : Option CacheKey) (best : Nat),
      (∀ k0, vic = some k0 → dictContains cache k0 = true) →
      ∀ k, selectMaxPos cache l (vic, best) = some k → dictContains cache k = true := by
  intro l
  induction l with
  | nil =>
      intro vic best hacc k h
      exact hacc k (by simpa [selectMaxPos] using h)
  | cons p rest ih =>
      intro vic best hacc k h
      obtain ⟨k0, s0⟩ := p
      simp only [selectMaxPos] at h
      split at h
      · rename_i hcond
        exact ih (some k0) s0 (fun k1 h1 => by cases h1; exact hcond.1) k h
      · exact ih vic best hacc k h

theorem selectMaxPos_none_sound (cache : CacheDict) :
    ∀ (l : List (CacheKey × Nat)) (best : Nat),
      selectMaxPos cache l (none, best) = none →
      ∀ p ∈ l, ¬(dictContains cache p.1 = true ∧ best < p.2) := by
  intro l
  induction l with
  | nil => intro best _ p hp; simp at hp
  | cons q rest ih =>
      intro best h p hp
      obtain ⟨k0, s0⟩ := q
      simp only [selectMaxPos] at h
      split at h
      · exact absurd h (selectMaxPos_some cache rest k0 s0)
      · rename_i hcond
        rcases List.mem_cons.mp hp with heq | htail
        · subst heq; exact hcond
        · exact ih best h p htail

theorem selectMaxPos_none_complete (cache : CacheDict) :
    ∀ (l : List (CacheKey × Nat)) (best : Nat) (vic : Option CacheKey),
      (∀ p ∈ l, ¬(dictContains cache p.1 = true ∧ best < p.2)) →
      selectMaxPos cache l (vic, best) = vic := by
  intro l
  induction l with
  | nil => intro best vic _; rfl
  | cons q rest ih =>
      intro best vic hall
      obtain ⟨k0, s0⟩ := q
      simp only [selectMaxPos]
      split
      · rename_i hcond
        exact absurd hcond (hall (k0, s0) (List.mem_cons_self _ _))
      · exact ih best vic (fun p hp => hall p (List.mem_cons_of_mem _ hp))

theorem choose_oldest_some :
    ∀ (l : CacheDict) (k : CacheKey) (best : Option ℚ),
      choose_oldest l (some k, best) ≠ none := by
  intro l
  induction l with
  | nil => intro k best h; simp [choose_oldest] at h
  | cons p rest ih =>
      intro k best
      obtain ⟨k0, v0⟩ := p
      simp only [choose_oldest]
      split
      · exact ih k0 _
      · exact ih k best

theorem choose_oldest_provenance :
    ∀ (l : CacheDict) (vic : Option CacheKey) (best : Option ℚ),
      choose_oldest l (vic, best) = vic ∨
      ∃ k, k ∈ dictKeys l ∧ choose_oldest l (vic, best) = some k := by
  intro l
  induction l with
  | nil => intro vic best; exact Or.inl rfl
  | cons p rest ih =>
      intro vic best
      obtain ⟨k0, v0⟩ := p
      simp only [choose_oldest]
      split
      · rcases ih (some k0) (some v0.access_time) with h | ⟨k, hk, h⟩
        · exact Or.inr ⟨k0, by simp [dictKeys], h⟩
        · exact Or.inr ⟨k, by simp [dictKeys]; exact Or.inr (by simpa [dictKeys] using hk), h⟩
      · rcases ih vic best with h | ⟨k, hk, h⟩
        · exact Or.inl h
        · exact Or.inr ⟨k, by simp [dictKeys]; exact Or.inr (by simpa [dictKeys] using hk), h⟩

theorem foldl_min_mem (f : CacheKey → Nat) :
    ∀ (xs : List CacheKey) (b : CacheKey),
      xs.foldl (fun best k2 => if f k2 < f best then k2 else best) b ∈ b :: xs := by
  intro xs
  induction xs with
  | nil => intro b; exact List.mem_cons_self _ _
  | cons x rest ih =>
      intro b
      simp only [List.foldl_cons]
      by_cases hx : f x < f b
      · rw [if_pos hx]
        rcases List.mem_cons.mp (ih x) with h | h
        · rw [h]; simp
        · exact List.mem_cons_of_mem _ (List.mem_cons_of_mem _ h)
      · rw [if_neg hx]
        rcases List.mem_cons.mp (ih b) with h | h
        · rw [h]; simp
        · exact List.mem_cons_of_mem _ (List.mem_cons_of_mem _ h)

theorem decay_some_resident (d now : ℚ) (ra : DecayState) (cache : CacheDict) (k : CacheKey)
    (h : decayChooseVictim d ra cache now = some k) : dictContains cache k = true := by
  rcases selectMin_provenance cache
      (ra.map (fun kq => (kq.1, decayScore d now kq.1 kq.2))) none none with hp | hp
  · rw [decayChooseVictim, hp] at h
    exact absurd h (by simp)
  · obtain ⟨k', s, _, hres, hsel⟩ := hp
    rw [decayChooseVictim, hsel] at h
    simp only [Option.some.injEq] at h
    exact h ▸ hres

theorem decay_none_iff (d now : ℚ) (ra : DecayState) (cache : CacheDict) :
    decayChooseVictim d ra cache now = none ↔
      ∀ p ∈ ra, dictContains cache p.1 = false := by
  constructor
  · intro h p hp
    by_contra hres
    rw [Bool.not_eq_false] at hres
    have hmem : (p.1, decayScore d now p.1 p.2) ∈
        ra.map (fun kq => (kq.1, decayScore d now kq.1 kq.2)) :=
      List.mem_map.mpr ⟨p, hp, rfl⟩
    obtain ⟨m', hm', _⟩ := selectMin_bound cache _ none none _ _ hmem hres
    rcases selectMin_provenance cache
        (ra.map (fun kq => (kq.1, decayScore d now kq.1 kq.2))) none none with hp2 | hp2
    · rw [hp2] at hm'
      exact absurd hm' (by simp)
    · obtain ⟨k', s, _, _, hsel⟩ := hp2
      rw [decayChooseVictim, hsel] at h
      exact absurd h (by simp)
  · intro hall
    have hall2 : ∀ q ∈ ra.map (fun kq => (kq.1, decayScore d now kq.1 kq.2)),
        dictContains cache q.1 = false := by
      intro q hq
      obtain ⟨p, hp, rfl⟩ := List.mem_map.mp hq
      exact hall p hp
    rw [decayChooseVictim, selectMin_skip_all cache _ (none, none) hall2]

theorem lfuda_scores_key_mem {st : LFUDAState} {now : ℚ} {k : CacheKey} :
    k ∈ dictKeys (lfudaScores st now) ↔ k ∈ st.frequency_count.map (·.1) := by
  unfold lfudaScores
  rw [dictKeys_foldl_bump_mem
        (fun kf => lfudaScore now kf.1 kf.2 (dictLookup st.last_access_time kf.1))
        st.frequency_count [] k]
  simp [dictKeys]

theorem lfuda_some_resident (now : ℚ) (st : LFUDAState) (cache : CacheDict) (k : CacheKey)
    (h : lfudaChooseVictim st cache now = some k) : dictContains cache k = true := by
  rcases selectMin_provenance cache (lfudaScores st now) none none with hp | hp
  · rw [lfudaChooseVictim, hp] at h
    exact absurd h (by simp)
  · obtain ⟨k', s, _, hres, hsel⟩ := hp
    rw [lfudaChooseVictim, hsel] at h
    simp only [Option.some.injEq] at h
    exact h ▸ hres

theorem lfuda_none_iff (now : ℚ) (st : LFUDAState) (cache : CacheDict) :
    lfudaChooseVictim st cache now = none ↔
      ∀ p ∈ st.frequency_count, dictContains cache p.1 = false := by
  constructor
  · intro h p hp
    by_contra hres
    rw [Bool.not_eq_false] at hres
    have hk : p.1 ∈ dictKeys (lfudaScores st now) :=
      lfuda_scores_key_mem.mpr (List.mem_map_of_mem (·.1) hp)
    obtain ⟨s, hmem⟩ := (mem_dictKeys_iff _ _).mp hk
    obtain ⟨m', hm', _⟩ := selectMin_bound cache _ none none _ _ hmem hres
    rcases selectMin_provenance cache (lfudaScores st now) none none with hp2 | hp2
    · rw [hp2] at hm'
      exact absurd hm' (by simp)
    · obtain ⟨k', s', _, _, hsel⟩ := hp2
      rw [lfudaChooseVictim, hsel] at h
      exact absurd h (by simp)
  · intro hall
    have hall2 : ∀ q ∈ lfudaScores st now, dictContains cache q.1 = false := by
      intro q hq
      have hk : q.1 ∈ dictKeys (lfudaScores st now) := List.mem_map_of_mem (·.1) hq
      have := lfuda_scores_key_mem.mp hk
      obtain ⟨p, hp, hpe⟩ := List.mem_map.mp this
      exact hpe ▸ hall p hp
    rw [lfudaChooseVictim, selectMin_skip_all cache _ (none, none) hall2]

theorem choose_oldest_none_iff (cache : CacheDict) :
    choose_oldest cache (none, none) = none ↔ cache = [] := by
  constructor
  · intro h
    match cache, h with
    | [], _ => rfl
    | (k0, v0) :: rest, h =>
        simp only [choose_oldest, ltOpt, if_pos] at h
        exact absurd h (choose_oldest_some rest k0 (some v0.access_time))
  · intro h
    subst h
    rfl

/-- Claim C9 (amended).  Contracts of the five `choose_victim` variants over
an arbitrary mapping.  All five are pure over the store: by construction of
the embedding they return (at most) a new policy state and never touch the
mapping or its entries.  The decayed-recency and frequency+recency variants
always complete, return only resident victims, and return none exactly when
no tracked key is resident; LRU always completes, returns only resident
victims, and returns none exactly on the empty mapping.  The remaining two
variants, however, can fail: naive LFU completes exactly on a non-empty
mapping (raising `ValueError` on the empty one) and then returns a resident
key, while the hot-block variant returns a resident key when it succeeds
but raises `KeyError` exactly when no tracked key is both resident and has
a strictly positive hotness counter after the bumping pass. -/
theorem choose_victim_contracts :
    (∀ (d : ℚ) (ra : DecayState) (cache : CacheDict) (now : ℚ),
        (decayPolicy d).choose_victim ra cache now =
            .ok (decayChooseVictim d ra cache now, ra) ∧
        (∀ k, decayChooseVictim d ra cache now = some k → dictContains cache k = true) ∧
        (decayChooseVictim d ra cache now = none ↔
          ∀ p ∈ ra, dictContains cache p.1 = false)) ∧
    (∀ (st : LFUDAState) (cache : CacheDict) (now : ℚ),
        lFUDAEvictor.choose_victim st cache now = .ok (lfudaChooseVictim st cache now, st) ∧
        (∀ k, lfudaChooseVictim st cache now = some k → dictContains cache k = true) ∧
        (lfudaChooseVictim st cache now = none ↔
          ∀ p ∈ st.frequency_count, dictContains cache p.1 = false)) ∧
    (∀ (st : Unit) (cache : CacheDict) (now : ℚ),
        lru_evictor.choose_victim st cache now = .ok (choose_oldest cache (none, none), st) ∧
        (∀ k, choose_oldest cache (none, none) = some k → dictContains cache k = true) ∧
        (choose_oldest cache (none, none) = none ↔ cache = [])) ∧
    (∀ (freq : List (CacheKey × Nat)) (cache : CacheDict),
        (cache = [] → lfuChooseVictim freq cache =
            .error "ValueError: min() iterable argument is empty") ∧
        (cache ≠ [] → ∃ k freq2, lfuChooseVictim freq cache = .ok (some k, freq2) ∧
            dictContains cache k = true)) ∧
    (∀ (t : ℚ) (hb : List (CacheKey × Nat)) (cache : CacheDict) (now : ℚ),
        (∀ k hb2, hotBlockChooseVictim t hb cache now = .ok (some k, hb2) →
            dictContains cache k = true) ∧
        ((∃ e, hotBlockChooseVictim t hb cache now = .error e) ↔
          ∀ p ∈ hotBumped t hb cache now,
            ¬(dictContains cache p.1 = true ∧ 0 < p.2))) := by
  refine ⟨?_, ?_, ?_, ?_, ?_⟩
  · intro d ra cache now
    exact ⟨rfl, fun k => decay_some_resident d now ra cache k, decay_none_iff d now ra cache⟩
  · intro st cache now
    exact ⟨rfl, fun k => lfuda_some_resident now st cache k, lfuda_none_iff now st cache⟩
  · intro st cache now
    refine ⟨rfl, fun k h => ?_, choose_oldest_none_iff cache⟩
    rcases choose_oldest_provenance cache none none with hp | ⟨k', hk', hsel⟩
    · rw [hp] at h
      exact absurd h (by simp)
    · rw [hsel] at h
      simp only [Option.some.injEq] at h
      exact mem_keys_contains (h ▸ hk')
  · intro freq cache
    constructor
    · intro h
      subst h
      rfl
    · intro hne
      match cache with
      | [] => exact absurd rfl hne
      | kv :: rest =>
          simp only [lfuChooseVictim, dictKeys, List.map_cons, pyMinBy]
          refine ⟨_, _, rfl, ?_⟩
          apply mem_keys_contains
          have := foldl_min_mem
            (fun k => (dictLookup ((kv :: rest).foldl
              (fun acc kv2 => dictInsert acc kv2.1 ((dictLookup acc kv2.1).getD 0 + 1)) freq) k).getD 0)
            (rest.map (·.1)) kv.1
          simpa [dictKeys] using this
  · intro t hb cache now
    constructor
    · intro k hb2 h
      simp only [hotBlockChooseVictim] at h
      split at h
      · exact absurd h (by simp)
      · rename_i victim hsel
        simp only [Except.ok.injEq, Prod.mk.injEq, Option.some.injEq] at h
        obtain ⟨hv, _⟩ := h
        exact selectMaxPos_resident cache _ none 0 (fun k0 h0 => by cases h0) k (hv ▸ hsel)
    · constructor
      · rintro ⟨e, h⟩
        simp only [hotBlockChooseVictim] at h
        split at h
        · rename_i hsel
          exact selectMaxPos_none_sound cache _ 0 hsel
        · exact absurd h (by simp)
      · intro hall
        refine ⟨"KeyError: None", ?_⟩
        have hnone := selectMaxPos_none_complete cache (hotBumped t hb cache now) 0 none hall
        simp [hotBlockChooseVictim, hnone]

/-- C1 witness final store: two small entries inserted into a fresh store
with `max_size = 16`. -/
def w1c : Cache :=
  ⟨16, [(⟨0, BlockSize.B8⟩, ⟨List.replicate 8 0, 1, 1⟩),
        (⟨8, BlockSize.B8⟩, ⟨List.replicate 8 0, 2, 1⟩)], 16⟩

/-- Witness for `size_invariant_preserved`: a fresh store satisfies the
invariant, and after a concrete two-call run the final `size` (16) again
equals the resident byte sum. -/
theorem size_invariant_preserved_witness :
    (Cache.init 16).size = sumSizes (Cache.init 16).cache ∧ w1c.size = sumSizes w1c.cache :=
  ⟨rfl,
   size_invariant_preserved lFUDADecayFactorEvictor (List.replicate 16 0) [] (Cache.init 16)
     [(0, BlockSize.B8, 1), (8, BlockSize.B8, 2)] w1c [(⟨8, BlockSize.B8⟩, [2])]
     rfl (by with_unfolding_all rfl)⟩
